import Mathlib

/-!
Verification of the generic task-orchestration engine of the repository
(`src/General_Repo/async_operations.py`, class `AsyncOperations`).

Shallow embedding conventions:
* A *unit of work* (an opaque Python callable with a fixed argument tuple) is
  modelled by the outcome it produces on each invocation: `run k` is the
  outcome of its `k`-th invocation (`Except.error` models a raised exception,
  `Except.ok` a returned value).  Python return values are modelled by
  `Option Nat`, with `none` playing the role of Python's `None`.
  `duration` is the unit's abstract execution time, used by the timeout
  wrapper.
* Raising an exception is modelled by `Except.error`; a function that raises
  returns no (partial) result, exactly as in Python.
* `asyncio.sleep` calls and unit invocations are recorded in explicit event
  traces so that claims about pause counts and invocation order are statable.
* Logging calls have no observable effect on the results and are omitted.
-/

structure UnitOfWork where
  run : Nat → Except String (Option Nat)
  duration : Nat

/-- Embedding of `AsyncOperations.run_task`: a single invocation of a unit.
The `try`/`except` re-raises the unit's exception after logging, so the
outcome of the invocation is passed through unchanged. -/
def run_task (u : UnitOfWork) (attempt : Nat) : Except String (Option Nat) :=
  u.run attempt

/-- Embedding of `AsyncOperations.run_in_parallel`:
`asyncio.gather(*[self.run_task(task, *args) for task in tasks])` awaits all
invocations and returns their results in submission order; if any invocation
raises, `gather` re-raises a failure instead of returning a list.  Each task
is invoked once (invocation index 0). -/
def run_in_parallel : List UnitOfWork → Except String (List (Option Nat))
  | [] => .ok []
  | u :: us =>
    match run_task u 0 with
    | .error e => .error e
    | .ok v =>
      match run_in_parallel us with
      | .error e => .error e
      | .ok vs => .ok (v :: vs)

theorem run_in_parallel_ok (us : List UnitOfWork) (vs : List (Option Nat))
    (h : us.map (fun u => u.run 0) = vs.map Except.ok) :
    run_in_parallel us = .ok vs := by
  induction us generalizing vs with
  | nil =>
    cases vs with
    | nil => rfl
    | cons v vs => simp at h
  | cons u us ih =>
    cases vs with
    | nil => simp at h
    | cons v vs =>
      simp only [List.map_cons, List.cons.injEq] at h
      simp only [run_in_parallel, run_task, h.1, ih vs h.2]

theorem run_in_parallel_error (us : List UnitOfWork)
    (h : ∃ u ∈ us, ∃ e, u.run 0 = .error e) :
    ∃ e, run_in_parallel us = .error e := by
  induction us with
  | nil => obtain ⟨u, hu, _⟩ := h; exact absurd hu (List.not_mem_nil u)
  | cons u us ih =>
    obtain ⟨w, hw, e, he⟩ := h
    rcases List.mem_cons.mp hw with rfl | hmem
    · exact ⟨e, by simp only [run_in_parallel, run_task, he]⟩
    · cases hu : w.run 0 with
      | error e' =>
        cases hu0 : u.run 0 with
        | error e0 => exact ⟨e0, by simp only [run_in_parallel, run_task, hu0]⟩
        | ok v0 =>
          obtain ⟨e1, he1⟩ := ih ⟨w, hmem, e', hu⟩
          exact ⟨e1, by simp only [run_in_parallel, run_task, hu0, he1]⟩
      | ok v => rw [hu] at he; exact absurd he (by simp)

/-- C3: for every sequence of units in which every unit succeeds, the parallel
runner returns the result sequence of the same length whose i-th element is
the result of the i-th unit, i.e. results are in submission order. -/
theorem c3_parallel_order (us : List UnitOfWork) (vs : List (Option Nat))
    (h : us.map (fun u => u.run 0) = vs.map Except.ok) :
    run_in_parallel us = .ok vs :=
  run_in_parallel_ok us vs h

theorem c3_witness :
    ([⟨fun _ => .ok (some 1), 0⟩, ⟨fun _ => .ok (some 2), 0⟩] :
        List UnitOfWork).map (fun u => u.run 0) =
      ([some 1, some 2] : List (Option Nat)).map Except.ok ∧
    run_in_parallel [⟨fun _ => .ok (some 1), 0⟩, ⟨fun _ => .ok (some 2), 0⟩] =
      .ok [some 1, some 2] :=
  ⟨rfl, c3_parallel_order _ [some 1, some 2] rfl⟩

/-- The sentinel value the timeout wrapper returns on expiry: Python `None`. -/
def TimedOut : Option Nat := none

/-- Embedding of `AsyncOperations.run_with_timeout`:
`asyncio.wait_for(self.run_task(task, *args), timeout=timeout)` races the
invocation against the deadline.  If the unit's duration exceeds the timeout,
the raised `asyncio.TimeoutError` is caught and `None` is returned; the
invocation's eventual outcome is discarded.  Otherwise the invocation's own
outcome (value or raised exception) is passed through. -/
def run_with_timeout (u : UnitOfWork) (timeout : Nat) :
    Except String (Option Nat) :=
  if timeout < u.duration then .ok TimedOut
  else run_task u 0

/-- C6: for every unit whose execution takes longer than the given timeout,
the timeout wrapper returns the `TimedOut` sentinel (an `.ok` outcome, never a
raised error); the underlying invocation's result is discarded. -/
theorem c6_timeout_sentinel (u : UnitOfWork) (timeout : Nat)
    (h : timeout < u.duration) :
    run_with_timeout u timeout = .ok TimedOut := by
  simp only [run_with_timeout, if_pos h]

theorem c6_witness :
    (3 : Nat) < (⟨fun _ => .error "boom", 5⟩ : UnitOfWork).duration ∧
    run_with_timeout ⟨fun _ => .error "boom", 5⟩ 3 = .ok TimedOut :=
  ⟨by decide, c6_timeout_sentinel ⟨fun _ => .error "boom", 5⟩ 3 (by decide)⟩

/-- C10: a unit that completes within the timeout and returns `None` makes
`run_with_timeout` return exactly the same value as a timed-out unit does, so
at the public interface a timeout is indistinguishable from a successful
invocation whose result is `None`. -/
theorem c10_none_ambiguity (u : UnitOfWork) (timeout : Nat)
    (h1 : ¬ timeout < u.duration) (h2 : u.run 0 = .ok none) :
    run_with_timeout u timeout = .ok TimedOut ∧
    ∀ (v : UnitOfWork) (t : Nat), t < v.duration →
      run_with_timeout v t = run_with_timeout u timeout := by
  have hu : run_with_timeout u timeout = .ok TimedOut := by
    simp only [run_with_timeout, if_neg h1, run_task, h2, TimedOut]
  refine ⟨hu, fun v t ht => ?_⟩
  rw [hu]
  simp only [run_with_timeout, if_pos ht]

theorem c10_witness :
    (¬ (7 : Nat) < (⟨fun _ => .ok none, 2⟩ : UnitOfWork).duration) ∧
    (⟨fun _ => .ok none, 2⟩ : UnitOfWork).run 0 = .ok none ∧
    (run_with_timeout ⟨fun _ => .ok none, 2⟩ 7 = .ok TimedOut ∧
      ∀ (v : UnitOfWork) (t : Nat), t < v.duration →
        run_with_timeout v t = run_with_timeout ⟨fun _ => .ok none, 2⟩ 7) :=
  ⟨by decide, rfl,
   c10_none_ambiguity ⟨fun _ => .ok none, 2⟩ 7 (by decide) rfl⟩

/-- Events observable during a retry run: an invocation of the unit (with its
attempt index) or an `asyncio.sleep` of the fixed retry delay. -/
inductive RetryEvent where
  | invoke (attempt : Nat)
  | sleep (delay : Nat)
deriving DecidableEq, Repr

def RetryEvent.isInvoke : RetryEvent → Bool
  | .invoke _ => true
  | .sleep _ => false

def RetryEvent.isSleep : RetryEvent → Bool
  | .invoke _ => false
  | .sleep _ => true

/-- Embedding of the `for attempt in range(max_retries)` loop of
`AsyncOperations.run_with_retry`, over the list of remaining attempt indices.
A successful invocation returns immediately; a failing one re-raises if
`attempt == max_retries - 1`, and otherwise sleeps `retry_delay` and goes on
to the next attempt.  Falling out of an empty loop returns Python's implicit
`None`. -/
def retryGo (u : UnitOfWork) (max_retries retry_delay : Nat) :
    List Nat → Except String (Option Nat) × List RetryEvent
  | [] => (.ok none, [])
  | attempt :: rest =>
    match run_task u attempt with
    | .ok v => (.ok v, [.invoke attempt])
    | .error e =>
      if attempt = max_retries - 1 then (.error e, [.invoke attempt])
      else
        let r := retryGo u max_retries retry_delay rest
        (r.1, .invoke attempt :: .sleep retry_delay :: r.2)

/-- Embedding of `AsyncOperations.run_with_retry`: the loop runs over
`range(max_retries)`.  Returns the outcome together with the event trace. -/
def run_with_retry (u : UnitOfWork) (max_retries retry_delay : Nat) :
    Except String (Option Nat) × List RetryEvent :=
  retryGo u max_retries retry_delay (List.range max_retries)

/-- The event trace produced when every attempt fails: one invocation per
attempt with one sleep of the fixed delay between consecutive attempts. -/
def allFailTrace (d : Nat) : List Nat → List RetryEvent
  | [] => []
  | [a] => [.invoke a]
  | a :: b :: rest => .invoke a :: .sleep d :: allFailTrace d (b :: rest)

theorem allFailTrace_invoke_count (d : Nat) :
    ∀ l : List Nat, (allFailTrace d l).countP RetryEvent.isInvoke = l.length
  | [] => rfl
  | [a] => rfl
  | a :: b :: rest => by
    simp only [allFailTrace, List.countP_cons, allFailTrace_invoke_count d (b :: rest)]
    simp [RetryEvent.isInvoke, RetryEvent.isSleep, List.length_cons]

theorem allFailTrace_sleep_count (d : Nat) :
    ∀ l : List Nat, (allFailTrace d l).countP RetryEvent.isSleep = l.length - 1
  | [] => rfl
  | [a] => rfl
  | a :: b :: rest => by
    simp only [allFailTrace, List.countP_cons, allFailTrace_sleep_count d (b :: rest)]
    simp [RetryEvent.isInvoke, RetryEvent.isSleep, List.length_cons]

theorem retryGo_allFail (u : UnitOfWork) (N d : Nat)
    (hfail : ∀ k, ∃ e, u.run k = .error e) :
    ∀ (k a : Nat), a + k + 1 = N →
      ∃ e, u.run (N - 1) = .error e ∧
        retryGo u N d (List.range' a (k + 1)) =
          (.error e, allFailTrace d (List.range' a (k + 1))) := by
  intro k
  induction k with
  | zero =>
    intro a ha
    obtain ⟨e, he⟩ := hfail a
    have haN : a = N - 1 := by omega
    subst haN
    refine ⟨e, he, ?_⟩
    simp only [List.range'_one, retryGo, run_task, he, allFailTrace]
    simp
  | succ k ih =>
    intro a ha
    obtain ⟨e0, he0⟩ := hfail a
    obtain ⟨e, he, hrec⟩ := ih (a + 1) (by omega)
    refine ⟨e, he, ?_⟩
    have hne : a ≠ N - 1 := by omega
    have hcons : List.range' a (k + 1 + 1) = a :: List.range' (a + 1) (k + 1) :=
      List.range'_succ a (k + 1) 1
    have hcons2 : List.range' (a + 1) (k + 1) = (a + 1) :: List.range' (a + 2) k :=
      List.range'_succ (a + 1) k 1
    rw [hcons]
    have hstep : retryGo u N d (a :: List.range' (a + 1) (k + 1)) =
        ((retryGo u N d (List.range' (a + 1) (k + 1))).1,
          .invoke a :: .sleep d :: (retryGo u N d (List.range' (a + 1) (k + 1))).2) := by
      simp only [retryGo, run_task, he0, if_neg hne]
    rw [hstep, hrec]
    rw [hcons2]
    simp only [allFailTrace]

/-- C5: for every unit that fails on every invocation and every
`max_retries = N ≥ 1`, the retry wrapper invokes the unit exactly `N` times
(attempts `0 .. N-1`, not `N+1` attempts), sleeps the fixed delay exactly once
between consecutive attempts (so `N - 1` sleeps, none after the last), and
re-raises the final attempt's failure to the caller. -/
theorem c5_retry_exhaustion (u : UnitOfWork) (N d : Nat) (hN : 1 ≤ N)
    (hfail : ∀ k, ∃ e, u.run k = .error e) :
    ∃ e, u.run (N - 1) = .error e ∧
      run_with_retry u N d = (.error e, allFailTrace d (List.range N)) ∧
      (allFailTrace d (List.range N)).countP RetryEvent.isInvoke = N ∧
      (allFailTrace d (List.range N)).countP RetryEvent.isSleep = N - 1 := by
  obtain ⟨e, he, hgo⟩ := retryGo_allFail u N d hfail (N - 1) 0 (by omega)
  refine ⟨e, he, ?_, ?_, ?_⟩
  · have hrange : List.range N = List.range' 0 (N - 1 + 1) := by
      rw [List.range_eq_range']
      congr 1
      omega
    rw [run_with_retry, hrange, hgo]
  · rw [allFailTrace_invoke_count, List.length_range]
  · rw [allFailTrace_sleep_count, List.length_range]

theorem c5_witness :
    (1 : Nat) ≤ 3 ∧
    (∀ k, ∃ e, (⟨fun _ => .error "always", 0⟩ : UnitOfWork).run k = .error e) ∧
    ∃ e, (⟨fun _ => .error "always", 0⟩ : UnitOfWork).run (3 - 1) = .error e ∧
      run_with_retry ⟨fun _ => .error "always", 0⟩ 3 7 =
        (.error e, allFailTrace 7 (List.range 3)) ∧
      (allFailTrace 7 (List.range 3)).countP RetryEvent.isInvoke = 3 ∧
      (allFailTrace 7 (List.range 3)).countP RetryEvent.isSleep = 3 - 1 :=
  ⟨by decide, fun k => ⟨"always", rfl⟩,
   c5_retry_exhaustion ⟨fun _ => .error "always", 0⟩ 3 7 (by decide)
     (fun k => ⟨"always", rfl⟩)⟩

/-- A task descriptor of `AsyncOperations.run_with_priority`: the Python dict
with keys `'task'` (a callable) and `'priority'` (an int). -/
structure TaskDescriptor where
  unit : UnitOfWork
  priority : Int

/-- The precedence relation realised by
`sorted(tasks, key=lambda x: x['priority'], reverse=True)` on submission-index
tagged descriptors: `a` may stay before `b` exactly when `b`'s priority does
not exceed `a`'s.  The sort never looks at the tag (`Prod.fst`), exactly as
the Python key function never looks at the list position. -/
def prioGE (a b : Nat × TaskDescriptor) : Prop :=
  b.2.priority ≤ a.2.priority

instance : DecidableRel prioGE := fun _ _ => Int.decLe _ _

instance : IsTotal (Nat × TaskDescriptor) prioGE :=
  ⟨fun a b => le_total b.2.priority a.2.priority⟩

instance : IsTrans (Nat × TaskDescriptor) prioGE :=
  ⟨fun _ _ _ hab hbc => le_trans hbc hab⟩

/-- Embedding of `sorted(tasks, key=lambda x: x['priority'], reverse=True)`:
Python's `sorted` is a stable sort, which is observationally insertion sort
with the `prioGE` precedence relation; the descriptors are tagged with their
submission indices so that execution order is expressible. -/
def sorted_tasks (tasks : List TaskDescriptor) : List (Nat × TaskDescriptor) :=
  List.insertionSort prioGE tasks.enum

/-- The value a unit invocation returned (used only below invocations known
to succeed). -/
def okValue (o : Except String (Option Nat)) : Option Nat :=
  match o with
  | .ok v => v
  | .error _ => none

/-- Embedding of the sequential `for task_info in sorted_tasks` loop of
`run_with_priority`: units are invoked strictly one after another via
`run_task`, results accumulated in execution order; an exception aborts the
loop and propagates. -/
def execSeq : List (Nat × TaskDescriptor) → Except String (List (Option Nat))
  | [] => .ok []
  | t :: ts =>
    match run_task t.2.unit 0 with
    | .error e => .error e
    | .ok v =>
      match execSeq ts with
      | .error e => .error e
      | .ok vs => .ok (v :: vs)

/-- Embedding of `AsyncOperations.run_with_priority`: sort by descending
priority (stably), then execute sequentially.  The second component is the
execution trace: the submission indices in execution order. -/
def run_with_priority (tasks : List TaskDescriptor) :
    Except String (List (Option Nat)) × List Nat :=
  (execSeq (sorted_tasks tasks), (sorted_tasks tasks).map Prod.fst)

/-- The claim's ordering property between two executed descriptors: either the
earlier-executed one has strictly higher priority, or the priorities are equal
and the earlier-executed one was submitted earlier. -/
def priorityStable (a b : Nat × TaskDescriptor) : Prop :=
  b.2.priority < a.2.priority ∨ (a.2.priority = b.2.priority ∧ a.1 < b.1)

theorem orderedInsert_priorityStable
    (l : List (Nat × TaskDescriptor)) (a : Nat × TaskDescriptor)
    (hs : l.Sorted prioGE) (hp : l.Pairwise priorityStable)
    (ha : ∀ e ∈ l, a.1 < e.1) :
    (l.orderedInsert prioGE a).Pairwise priorityStable := by
  induction l with
  | nil => simp [List.orderedInsert]
  | cons b l ih =>
    by_cases hab : prioGE a b
    · rw [List.orderedInsert_of_le _ _ hab]
      refine List.pairwise_cons.mpr ⟨fun e he => ?_, hp⟩
      have hle : e.2.priority ≤ a.2.priority := by
        rcases List.mem_cons.mp he with rfl | hel
        · exact hab
        · exact le_trans (List.rel_of_sorted_cons hs e hel) hab
      rcases lt_or_eq_of_le hle with hlt | heq
      · exact Or.inl hlt
      · exact Or.inr ⟨heq.symm, ha e he⟩
    · have : (b :: l).orderedInsert prioGE a = b :: l.orderedInsert prioGE a := by
        simp [List.orderedInsert, hab]
      rw [this]
      refine List.pairwise_cons.mpr ⟨fun e he => ?_, ?_⟩
      · rcases (List.mem_orderedInsert prioGE).mp he with rfl | hel
        · exact Or.inl (lt_of_not_le hab)
        · exact (List.pairwise_cons.mp hp).1 e hel
      · exact ih hs.of_cons (List.pairwise_cons.mp hp).2
          (fun e he => ha e (List.mem_cons_of_mem b he))

theorem insertionSort_priorityStable (l : List (Nat × TaskDescriptor))
    (hl : l.Pairwise fun a b => a.1 < b.1) :
    (List.insertionSort prioGE l).Pairwise priorityStable := by
  induction l with
  | nil => simp [List.insertionSort]
  | cons a l ih =>
    have hcons := List.pairwise_cons.mp hl
    exact orderedInsert_priorityStable _ a
      (List.sorted_insertionSort prioGE l) (ih hcons.2)
      (fun e he =>
        hcons.1 e ((List.perm_insertionSort prioGE l).subset he))

theorem enum_pairwise_lt (tasks : List TaskDescriptor) :
    tasks.enum.Pairwise fun a b => a.1 < b.1 := by
  have h := List.pairwise_lt_range tasks.length
  rw [← List.enum_map_fst tasks] at h
  exact List.pairwise_map.mp h

theorem execSeq_ok (l : List (Nat × TaskDescriptor))
    (h : ∀ t ∈ l, ∃ v, t.2.unit.run 0 = .ok v) :
    execSeq l = .ok (l.map fun t => okValue (run_task t.2.unit 0)) := by
  induction l with
  | nil => rfl
  | cons t ts ih =>
    obtain ⟨v, hv⟩ := h t (List.mem_cons_self t ts)
    have hts := ih fun x hx => h x (List.mem_cons_of_mem t hx)
    simp only [execSeq, run_task, hv, hts, List.map_cons, okValue]

/-- C7: the priority scheduler executes the units strictly sequentially in the
order of the stable sort by descending priority — any two executed descriptors
are either in strictly descending priority order or are an equal-priority pair
in submission order — every submitted descriptor is executed (the execution
trace is a permutation of the submission indices), and the results are
returned in execution order. -/
theorem c7_priority_order (tasks : List TaskDescriptor)
    (hok : ∀ t ∈ tasks, ∃ v, t.unit.run 0 = .ok v) :
    (sorted_tasks tasks).Perm tasks.enum ∧
    (sorted_tasks tasks).Pairwise priorityStable ∧
    (run_with_priority tasks).2 = (sorted_tasks tasks).map Prod.fst ∧
    (run_with_priority tasks).1 =
      .ok ((sorted_tasks tasks).map fun t => okValue (run_task t.2.unit 0)) := by
  refine ⟨List.perm_insertionSort prioGE tasks.enum,
    insertionSort_priorityStable tasks.enum (enum_pairwise_lt tasks), rfl, ?_⟩
  refine execSeq_ok (sorted_tasks tasks) fun t ht => ?_
  have : t ∈ tasks.enum := (List.perm_insertionSort prioGE tasks.enum).subset ht
  exact hok t.2 (List.snd_mem_of_mem_enum this)

theorem c7_witness :
    (∀ t ∈ ([⟨⟨fun _ => .ok (some 10), 0⟩, 1⟩, ⟨⟨fun _ => .ok (some 20), 0⟩, 5⟩] :
        List TaskDescriptor), ∃ v, t.unit.run 0 = .ok v) ∧
    ((sorted_tasks [⟨⟨fun _ => .ok (some 10), 0⟩, 1⟩,
          ⟨⟨fun _ => .ok (some 20), 0⟩, 5⟩]).Perm
        ([⟨⟨fun _ => .ok (some 10), 0⟩, 1⟩,
          ⟨⟨fun _ => .ok (some 20), 0⟩, 5⟩] : List TaskDescriptor).enum ∧
      (sorted_tasks [⟨⟨fun _ => .ok (some 10), 0⟩, 1⟩,
          ⟨⟨fun _ => .ok (some 20), 0⟩, 5⟩]).Pairwise priorityStable ∧
      (run_with_priority [⟨⟨fun _ => .ok (some 10), 0⟩, 1⟩,
          ⟨⟨fun _ => .ok (some 20), 0⟩, 5⟩]).2 =
        (sorted_tasks [⟨⟨fun _ => .ok (some 10), 0⟩, 1⟩,
          ⟨⟨fun _ => .ok (some 20), 0⟩, 5⟩]).map Prod.fst ∧
      (run_with_priority [⟨⟨fun _ => .ok (some 10), 0⟩, 1⟩,
          ⟨⟨fun _ => .ok (some 20), 0⟩, 5⟩]).1 =
        .ok ((sorted_tasks [⟨⟨fun _ => .ok (some 10), 0⟩, 1⟩,
          ⟨⟨fun _ => .ok (some 20), 0⟩, 5⟩]).map
            fun t => okValue (run_task t.2.unit 0))) ∧
    (run_with_priority [⟨⟨fun _ => .ok (some 10), 0⟩, 1⟩,
        ⟨⟨fun _ => .ok (some 20), 0⟩, 5⟩]).2 = [1, 0] :=
  ⟨fun t ht => ⟨okValue (t.unit.run 0), by
      rcases List.mem_cons.mp ht with rfl | ht2
      · rfl
      · rcases List.mem_cons.mp ht2 with rfl | ht3
        · rfl
        · exact absurd ht3 (List.not_mem_nil t)⟩,
   c7_priority_order _ (fun t ht => ⟨okValue (t.unit.run 0), by
      rcases List.mem_cons.mp ht with rfl | ht2
      · rfl
      · rcases List.mem_cons.mp ht2 with rfl | ht3
        · rfl
        · exact absurd ht3 (List.not_mem_nil t)⟩),
   rfl⟩

/-- Events observable during a rate-limited run: a batch of the given size
handed to the parallel runner, or an `asyncio.sleep` of the pause duration. -/
inductive RateEvent where
  | batch (size : Nat)
  | sleep (seconds : Nat)
deriving DecidableEq, Repr

def RateEvent.isSleep : RateEvent → Bool
  | .batch _ => false
  | .sleep _ => true

/-- Embedding of the `for i in range(0, len(tasks), rate_limit)` loop of
`AsyncOperations.run_with_rate_limit`: the slice `tasks[i:i+rate_limit]` is
run through the parallel runner, its results are appended, and — exactly when
`i + rate_limit < len(tasks)`, i.e. when units remain — the loop sleeps
`time_period` before the next batch.  The fuel argument only bounds the
recursion; the entry point passes `len(tasks)`, which always suffices because
each iteration consumes at least one unit (`rate_limit ≥ 1`, as required for
Python's `range` step). -/
def rateLoop (rate_limit time_period : Nat) :
    Nat → List UnitOfWork → Except String (List (Option Nat)) × List RateEvent
  | 0, _ => (.ok [], [])
  | _, [] => (.ok [], [])
  | fuel + 1, u :: rest =>
    let batch := u :: rest.take (rate_limit - 1)
    let remaining := rest.drop (rate_limit - 1)
    match run_in_parallel batch with
    | .error e => (.error e, [.batch batch.length])
    | .ok vs =>
      if remaining.isEmpty then (.ok vs, [.batch batch.length])
      else
        let r := rateLoop rate_limit time_period fuel remaining
        (match r.1 with
         | .error e => .error e
         | .ok ws => .ok (vs ++ ws),
         .batch batch.length :: .sleep time_period :: r.2)

/-- Embedding of `AsyncOperations.run_with_rate_limit`. -/
def run_with_rate_limit (us : List UnitOfWork) (rate_limit time_period : Nat) :
    Except String (List (Option Nat)) × List RateEvent :=
  rateLoop rate_limit time_period us.length us

def chunkSizesAux (B : Nat) : Nat → Nat → List Nat
  | 0, _ => []
  | _, 0 => []
  | fuel + 1, n => min B n :: chunkSizesAux B fuel (n - B)

/-- The sizes of the consecutive groups into which a list of `n` units is
partitioned with batch size `B`. -/
def chunkSizes (B n : Nat) : List Nat := chunkSizesAux B n n

/-- The expected event trace of a rate-limited run with the given group
sizes: one batch per group, with exactly one sleep between consecutive
groups and none after the last. -/
def rlTrace (P : Nat) : List Nat → List RateEvent
  | [] => []
  | [s] => [.batch s]
  | s :: s2 :: rest => .batch s :: .sleep P :: rlTrace P (s2 :: rest)

theorem chunkSizesAux_zero (B : Nat) : ∀ f, chunkSizesAux B f 0 = []
  | 0 => rfl
  | _ + 1 => rfl

theorem chunkSizesAux_fuel (B : Nat) (hB : 1 ≤ B) :
    ∀ (f : Nat) (f' n : Nat), n ≤ f → n ≤ f' →
      chunkSizesAux B f n = chunkSizesAux B f' n := by
  intro f
  induction f with
  | zero =>
    intro f' n hn _
    interval_cases n
    rw [chunkSizesAux_zero, chunkSizesAux_zero]
  | succ f ih =>
    intro f' n hn hn'
    cases n with
    | zero => rw [chunkSizesAux_zero, chunkSizesAux_zero]
    | succ m =>
      cases f' with
      | zero => omega
      | succ f'' =>
        simp only [chunkSizesAux]
        congr 1
        exact ih f'' (m + 1 - B) (by omega) (by omega)

theorem chunkSizes_cons (B n : Nat) (hB : 1 ≤ B) (hn : 1 ≤ n) :
    chunkSizes B n = min B n :: chunkSizes B (n - B) := by
  cases n with
  | zero => omega
  | succ m =>
    show chunkSizesAux B (m + 1) (m + 1) = _
    simp only [chunkSizesAux]
    congr 1
    exact chunkSizesAux_fuel B hB m (m + 1 - B) (m + 1 - B) (by omega) le_rfl

theorem rlTrace_sleep_count (P : Nat) :
    ∀ l : List Nat, (rlTrace P l).countP RateEvent.isSleep = l.length - 1
  | [] => rfl
  | [s] => rfl
  | s :: s2 :: rest => by
    simp only [rlTrace, List.countP_cons, rlTrace_sleep_count P (s2 :: rest)]
    simp [RateEvent.isSleep, List.length_cons]

theorem chunkSizes_length (B : Nat) (hB : 1 ≤ B) :
    ∀ n, (chunkSizes B n).length = (n + B - 1) / B := by
  intro n
  induction n using Nat.strong_induction_on with
  | _ n ih =>
    cases n with
    | zero =>
      show (chunkSizesAux B 0 0).length = _
      rw [chunkSizesAux_zero]
      simp [Nat.div_eq_of_lt (by omega : B - 1 < B)]
    | succ m =>
      rw [chunkSizes_cons B (m + 1) hB (by omega), List.length_cons,
        ih (m + 1 - B) (by omega)]
      rcases le_or_lt (m + 1) B with hle | hlt
      · have h1 : m + 1 - B = 0 := by omega
        rw [h1]
        have h2 : (m + 1 + B - 1) / B = 1 :=
          Nat.div_eq_of_lt_le (by omega) (by omega)
        rw [Nat.div_eq_of_lt (by omega : 0 + B - 1 < B), h2]
      · have h1 : m + 1 + B - 1 = (m + 1 - B + B - 1) + B := by omega
        rw [h1, Nat.add_div_right _ (by omega)]

theorem chunkSizes_bounds (B : Nat) (hB : 1 ≤ B) :
    ∀ n, ∀ s ∈ chunkSizes B n, 1 ≤ s ∧ s ≤ B := by
  intro n
  induction n using Nat.strong_induction_on with
  | _ n ih =>
    intro s hs
    cases n with
    | zero =>
      rw [show chunkSizes B 0 = [] from chunkSizesAux_zero B 0] at hs
      exact absurd hs (List.not_mem_nil s)
    | succ m =>
      rw [chunkSizes_cons B (m + 1) hB (by omega)] at hs
      rcases List.mem_cons.mp hs with rfl | htl
      · constructor <;> omega
      · exact ih (m + 1 - B) (by omega) s htl

theorem chunkSizes_dropLast (B : Nat) (hB : 1 ≤ B) :
    ∀ n, ∀ s ∈ (chunkSizes B n).dropLast, s = B := by
  intro n
  induction n using Nat.strong_induction_on with
  | _ n ih =>
    intro s hs
    cases n with
    | zero =>
      rw [show chunkSizes B 0 = [] from chunkSizesAux_zero B 0] at hs
      exact absurd hs (List.not_mem_nil s)
    | succ m =>
      rw [chunkSizes_cons B (m + 1) hB (by omega)] at hs
      rcases le_or_lt (m + 1) B with hle | hlt
      · rw [show chunkSizes B (m + 1 - B) = [] from by
            rw [show m + 1 - B = 0 from by omega]
            exact chunkSizesAux_zero B 0] at hs
        simp at hs
      · rw [List.dropLast_cons_of_ne_nil (by
            rw [chunkSizes_cons B (m + 1 - B) hB (by omega)]
            exact List.cons_ne_nil _ _)] at hs
        rcases List.mem_cons.mp hs with rfl | htl
        · omega
        · exact ih (m + 1 - B) (by omega) s htl

theorem rateLoop_ok (b P : Nat) :
    ∀ (fuel : Nat) (us : List UnitOfWork) (vs : List (Option Nat)),
      us.length ≤ fuel →
      us.map (fun u => u.run 0) = vs.map Except.ok →
      rateLoop (b + 1) P fuel us =
        (.ok vs, rlTrace P (chunkSizes (b + 1) us.length)) := by
  intro fuel
  induction fuel with
  | zero =>
    intro us vs hlen hvals
    have hus : us = [] := List.eq_nil_of_length_eq_zero (by omega)
    subst hus
    cases vs with
    | nil => rfl
    | cons v vs => simp at hvals
  | succ fuel ih =>
    intro us vs hlen hvals
    cases us with
    | nil =>
      cases vs with
      | nil => rfl
      | cons v vs => simp at hvals
    | cons u rest =>
      have hlen' : rest.length ≤ fuel := by
        simp only [List.length_cons] at hlen
        omega
      have hlenvs : vs.length = rest.length + 1 := by
        have := congrArg List.length hvals
        simpa using this.symm
      have hmap_batch : (u :: rest.take b).map (fun u => u.run 0) =
          (vs.take (b + 1)).map Except.ok := by
        have hbt : u :: rest.take b = (u :: rest).take (b + 1) := rfl
        rw [hbt, List.map_take, List.map_take, hvals]
      have hpar : run_in_parallel (u :: rest.take b) = .ok (vs.take (b + 1)) :=
        run_in_parallel_ok _ _ hmap_batch
      have hmap_rem : (rest.drop b).map (fun u => u.run 0) =
          (vs.drop (b + 1)).map Except.ok := by
        have hdt : rest.drop b = (u :: rest).drop (b + 1) := rfl
        rw [hdt, List.map_drop, List.map_drop, hvals]
      by_cases hE : (rest.drop b).isEmpty = true
      · have hrl : rest.length ≤ b := by
          have := List.isEmpty_iff.mp hE
          have := congrArg List.length this
          simp only [List.length_drop, List.length_nil] at this
          omega
        have hvs_take : vs.take (b + 1) = vs :=
          List.take_of_length_le (by omega)
        have hbl : (u :: rest.take b).length = rest.length + 1 := by
          simp only [List.length_cons, List.length_take]
          omega
        have hsz : chunkSizes (b + 1) (rest.length + 1) = [rest.length + 1] := by
          rw [chunkSizes_cons (b + 1) (rest.length + 1) (by omega) (by omega)]
          rw [show rest.length + 1 - (b + 1) = 0 from by omega]
          rw [show chunkSizes (b + 1) 0 = [] from chunkSizesAux_zero (b + 1) 0]
          rw [Nat.min_eq_right (by omega)]
        simp only [rateLoop, Nat.add_sub_cancel, hpar, hE, if_true,
          List.length_cons, hvs_take]
        rw [hsz, rlTrace]
        rw [show (rest.take b).length = rest.length from by
          simp only [List.length_take]; omega]
      · have hrl : b < rest.length := by
          rcases Nat.lt_or_ge b rest.length with h | h
          · exact h
          · exact absurd (by
              apply List.isEmpty_iff.mpr
              apply List.eq_nil_of_length_eq_zero
              simp only [List.length_drop]
              omega) hE
        have hrec := ih (rest.drop b) (vs.drop (b + 1))
          (by simp only [List.length_drop]; omega) hmap_rem
        rw [List.length_drop] at hrec
        have hbl : (u :: rest.take b).length = b + 1 := by
          simp only [List.length_cons, List.length_take]
          omega
        have hsz : chunkSizes (b + 1) (rest.length + 1) =
            (b + 1) :: chunkSizes (b + 1) (rest.length - b) := by
          rw [chunkSizes_cons (b + 1) (rest.length + 1) (by omega) (by omega)]
          rw [Nat.min_eq_left (by omega)]
          rw [show rest.length + 1 - (b + 1) = rest.length - b from by omega]
        have hsz2 : chunkSizes (b + 1) (rest.length - b) =
            min (b + 1) (rest.length - b) ::
              chunkSizes (b + 1) (rest.length - b - (b + 1)) :=
          chunkSizes_cons (b + 1) (rest.length - b) (by omega) (by omega)
        simp only [rateLoop, Nat.add_sub_cancel, hpar, hE, if_false,
          Bool.false_eq_true, hrec, List.take_append_drop, List.length_cons]
        rw [show (rest.take b).length + 1 = b + 1 from by
          simp only [List.length_take]; omega]
        rw [hsz, hsz2, rlTrace, ← hsz2]

/-- C8: for every unit sequence (all succeeding), batch size `B ≥ 1` and pause
`P`, the rate-limited batcher partitions the input into consecutive groups of
at most `B` units in which only the last group may be smaller than `B`, pauses
exactly once between consecutive groups and never after the last — which is
`ceil(n/B) - 1` pauses in total — and returns the concatenation of the
groups' results in group order, i.e. all results in submission order. -/
theorem c8_rate_limit (us : List UnitOfWork) (B P : Nat) (hB : 1 ≤ B)
    (vs : List (Option Nat))
    (hvals : us.map (fun u => u.run 0) = vs.map Except.ok) :
    run_with_rate_limit us B P =
      (.ok vs, rlTrace P (chunkSizes B us.length)) ∧
    (rlTrace P (chunkSizes B us.length)).countP RateEvent.isSleep =
      (us.length + B - 1) / B - 1 ∧
    (∀ s ∈ chunkSizes B us.length, 1 ≤ s ∧ s ≤ B) ∧
    (∀ s ∈ (chunkSizes B us.length).dropLast, s = B) := by
  obtain ⟨b, rfl⟩ : ∃ b, B = b + 1 := ⟨B - 1, by omega⟩
  refine ⟨rateLoop_ok b P us.length us vs le_rfl hvals, ?_, ?_, ?_⟩
  · rw [rlTrace_sleep_count, chunkSizes_length (b + 1) (by omega)]
  · exact chunkSizes_bounds (b + 1) (by omega) us.length
  · exact chunkSizes_dropLast (b + 1) (by omega) us.length

theorem c8_witness :
    (1 : Nat) ≤ 2 ∧
    (List.replicate 5 (⟨fun _ => .ok (some 4), 0⟩ : UnitOfWork)).map
        (fun u => u.run 0) =
      (List.replicate 5 (some 4 : Option Nat)).map Except.ok ∧
    (run_with_rate_limit (List.replicate 5 ⟨fun _ => .ok (some 4), 0⟩) 2 9 =
        (.ok (List.replicate 5 (some 4)),
          rlTrace 9 (chunkSizes 2 (List.replicate 5
            (⟨fun _ => .ok (some 4), 0⟩ : UnitOfWork)).length)) ∧
      (rlTrace 9 (chunkSizes 2 (List.replicate 5
            (⟨fun _ => .ok (some 4), 0⟩ : UnitOfWork)).length)).countP
          RateEvent.isSleep =
        ((List.replicate 5 (⟨fun _ => .ok (some 4), 0⟩ : UnitOfWork)).length
            + 2 - 1) / 2 - 1 ∧
      (∀ s ∈ chunkSizes 2 (List.replicate 5
            (⟨fun _ => .ok (some 4), 0⟩ : UnitOfWork)).length,
          1 ≤ s ∧ s ≤ 2) ∧
      (∀ s ∈ (chunkSizes 2 (List.replicate 5
            (⟨fun _ => .ok (some 4), 0⟩ : UnitOfWork)).length).dropLast,
          s = 2)) ∧
    (run_with_rate_limit (List.replicate 5 ⟨fun _ => .ok (some 4), 0⟩)
        2 9).2.countP RateEvent.isSleep = 2 :=
  ⟨by decide, rfl,
   c8_rate_limit (List.replicate 5 ⟨fun _ => .ok (some 4), 0⟩) 2 9
     (by decide) (List.replicate 5 (some 4)) rfl,
   by rfl⟩

/-- The execution state of one submitted unit inside
`AsyncOperations.run_with_resource_management`: not yet admitted by the
semaphore, currently running, or completed. -/
inductive TaskStatus where
  | waiting
  | running
  | done
deriving DecidableEq, Repr

def runningCount (sts : List TaskStatus) : Nat :=
  sts.countP fun s => decide (s = TaskStatus.running)

/-- Interleaving semantics of `run_with_resource_management`: every unit runs
inside `async with semaphore` where `semaphore = asyncio.Semaphore(N)`, so a
waiting unit may start only while fewer than `N` units hold the semaphore
(`start`), and a running unit may complete at any time, releasing its slot
(`finish` — the release is unconditional because `async with` releases on
every exit path). -/
inductive RMStep (max_concurrent : Nat) :
    List TaskStatus → List TaskStatus → Prop
  | start (sts : List TaskStatus) (i : Nat)
      (hw : sts[i]? = some TaskStatus.waiting)
      (hcap : runningCount sts < max_concurrent) :
      RMStep max_concurrent sts (sts.set i TaskStatus.running)
  | finish (sts : List TaskStatus) (i : Nat)
      (hr : sts[i]? = some TaskStatus.running) :
      RMStep max_concurrent sts (sts.set i TaskStatus.done)

/-- The initial state of a `run_with_resource_management` call on `n` units:
all units queued behind the semaphore. -/
def rmInit (n : Nat) : List TaskStatus := List.replicate n TaskStatus.waiting

theorem countP_set_eq (p : TaskStatus → Bool) :
    ∀ (l : List TaskStatus) (i : Nat) (a x : TaskStatus), l[i]? = some a →
      (l.set i x).countP p + (if p a then 1 else 0) =
        l.countP p + (if p x then 1 else 0) := by
  intro l
  induction l with
  | nil => intro i a x h; simp at h
  | cons c t ih =>
    intro i a x h
    cases i with
    | zero =>
      simp only [List.getElem?_cons_zero, Option.some.injEq] at h
      subst h
      simp only [List.set_cons_zero, List.countP_cons]
      omega
    | succ i =>
      simp only [List.getElem?_cons_succ] at h
      simp only [List.set_cons_succ, List.countP_cons]
      have := ih i a x h
      omega

theorem runningCount_rmInit (n : Nat) : runningCount (rmInit n) = 0 := by
  induction n with
  | zero => rfl
  | succ n ih =>
    simp only [runningCount, rmInit, List.replicate_succ, List.countP_cons] at *
    simp [ih]

theorem rm_count_le (k n : Nat) (sts : List TaskStatus)
    (h : Relation.ReflTransGen (RMStep k) (rmInit n) sts) :
    runningCount sts ≤ k := by
  induction h with
  | refl => rw [runningCount_rmInit]; exact Nat.zero_le k
  | tail hst step ih =>
    cases step with
    | start i hw hcap =>
      have hc := countP_set_eq (fun s => decide (s = TaskStatus.running))
        _ i TaskStatus.waiting TaskStatus.running hw
      simp at hc
      unfold runningCount at *
      omega
    | finish i hr =>
      have hc := countP_set_eq (fun s => decide (s = TaskStatus.running))
        _ i TaskStatus.running TaskStatus.done hr
      simp at hc
      unfold runningCount at *
      omega

theorem running_count_pos (sts : List TaskStatus) (j : Nat)
    (hr : sts[j]? = some TaskStatus.running) : 1 ≤ runningCount sts := by
  obtain ⟨hj, hget⟩ := List.getElem?_eq_some.mp hr
  refine List.countP_pos_iff.mpr ⟨TaskStatus.running, ?_, by simp⟩
  rw [← hget]
  exact List.getElem_mem hj

/-- C9: in every state reachable during a
`run_with_resource_management(U, max_concurrent=k)` call, at most `k` units
are simultaneously in the running state; and whenever a unit is running and
another queued, the running one can complete and the queued one is then
admitted (as one invocation completes, the next queued unit is admitted). -/
theorem c9_bounded_concurrency (k n : Nat) (sts : List TaskStatus)
    (h : Relation.ReflTransGen (RMStep k) (rmInit n) sts) :
    runningCount sts ≤ k ∧
    ∀ (i j : Nat), sts[j]? = some TaskStatus.running →
      sts[i]? = some TaskStatus.waiting →
      ∃ sts', Relation.ReflTransGen (RMStep k) sts sts' ∧
        sts'[i]? = some TaskStatus.running := by
  refine ⟨rm_count_le k n sts h, fun i j hr hw => ?_⟩
  have hij : i ≠ j := by
    intro he
    rw [he, hr] at hw
    exact absurd (Option.some.injEq _ _ ▸ hw) (by simp)
  have step1 : RMStep k sts (sts.set j TaskStatus.done) :=
    RMStep.finish sts j hr
  have hw1 : (sts.set j TaskStatus.done)[i]? = some TaskStatus.waiting := by
    rw [List.getElem?_set_ne (Ne.symm hij)]
    exact hw
  have hcap1 : runningCount (sts.set j TaskStatus.done) < k := by
    have hc := countP_set_eq (fun s => decide (s = TaskStatus.running))
      sts j TaskStatus.running TaskStatus.done hr
    simp at hc
    have hle := rm_count_le k n sts h
    have hpos := running_count_pos sts j hr
    unfold runningCount at *
    omega
  have step2 : RMStep k (sts.set j TaskStatus.done)
      ((sts.set j TaskStatus.done).set i TaskStatus.running) :=
    RMStep.start _ i hw1 hcap1
  refine ⟨(sts.set j TaskStatus.done).set i TaskStatus.running,
    (Relation.ReflTransGen.single step1).tail step2, ?_⟩
  have hilen : i < (sts.set j TaskStatus.done).length := by
    obtain ⟨hi, _⟩ := List.getElem?_eq_some.mp hw
    simpa using hi
  exact List.getElem?_set_self hilen

theorem c9_witness :
    Relation.ReflTransGen (RMStep 1) (rmInit 2)
      [TaskStatus.running, TaskStatus.waiting] ∧
    (runningCount [TaskStatus.running, TaskStatus.waiting] ≤ 1 ∧
      ∀ (i j : Nat), [TaskStatus.running, TaskStatus.waiting][j]? =
          some TaskStatus.running →
        [TaskStatus.running, TaskStatus.waiting][i]? =
          some TaskStatus.waiting →
        ∃ sts', Relation.ReflTransGen (RMStep 1)
            [TaskStatus.running, TaskStatus.waiting] sts' ∧
          sts'[i]? = some TaskStatus.running) :=
  have hreach : Relation.ReflTransGen (RMStep 1) (rmInit 2)
      [TaskStatus.running, TaskStatus.waiting] :=
    Relation.ReflTransGen.single
      (RMStep.start (rmInit 2) 0 (by decide) (by decide))
  ⟨hreach, c9_bounded_concurrency 1 2 _ hreach⟩

/-- Errors a dependency-graph run can raise: the `ValueError` of the circular
dependency check (carrying the offending task name), an exception raised by a
unit itself, the `KeyError` of `tasks[task_name]` for an unknown name, and
`fuelOut`, an artifact of the fuel-bounded embedding of the (always
terminating) Python recursion — the entry point always supplies enough fuel,
as proved below. -/
inductive DGErr where
  | cycle (name : String)
  | unitFail (msg : String)
  | keyErr (name : String)
  | fuelOut
deriving DecidableEq, Repr

/-- The mutable bookkeeping of `run_with_dependency_graph`: the `results`
dict in insertion order, the `in_progress` set (as the stack of names it is,
since names are added on call entry and removed on call exit), and the ghost
trace of unit invocations in order. -/
structure DGState where
  results : List (String × Option Nat)
  inProgress : List String
  trace : List String
deriving DecidableEq, Repr

/-- Python dict lookup on an association list (keys are unique in every dict
this embedding builds). -/
def dictGet {β : Type} : List (String × β) → String → Option β
  | [], _ => none
  | p :: ps, k => if p.1 = k then some p.2 else dictGet ps k

abbrev TaskMap := List (String × UnitOfWork)
abbrev DepMap := List (String × List String)

/-- `dependencies.get(task_name, [])`: the declared prerequisite list of a
task, defaulting to the empty list. -/
def adj (deps : DepMap) (n : String) : List String :=
  (dictGet deps n).getD []

/-- Embedding of the `for dep in deps: await run_task_with_deps(dep)` loop
(and of the entry loop over the task names), parametric in the resolving
function. -/
def runDeps (f : String → DGState → Except DGErr (Option Nat × DGState)) :
    List String → DGState → Except DGErr DGState
  | [], s => .ok s
  | d :: ds, s =>
    match f d s with
    | .error e => .error e
    | .ok (_, s') => runDeps f ds s'

/-- Embedding of the inner `run_task_with_deps` of
`AsyncOperations.run_with_dependency_graph`: a cached name returns its cached
result; a name already in `in_progress` raises the circular-dependency
`ValueError`; otherwise the name is pushed on `in_progress`, its declared
prerequisites are resolved in listed order, its unit is looked up
(`KeyError` if absent) and invoked once via `run_task`, the outcome is
cached, the name removed from `in_progress`, and the outcome returned.  The
fuel argument bounds the recursion depth, which in Python is bounded by the
number of distinct task names because every active frame holds a distinct
name in `in_progress`. -/
def runTaskWithDeps (tasks : TaskMap) (deps : DepMap) :
    Nat → String → DGState → Except DGErr (Option Nat × DGState)
  | 0, _, _ => .error .fuelOut
  | fuel + 1, name, s =>
    match dictGet s.results name with
    | some v => .ok (v, s)
    | none =>
      if name ∈ s.inProgress then .error (.cycle name)
      else
        match runDeps (runTaskWithDeps tasks deps fuel) (adj deps name)
            ⟨s.results, name :: s.inProgress, s.trace⟩ with
        | .error e => .error e
        | .ok s2 =>
          match dictGet tasks name with
          | none => .error (.keyErr name)
          | some u =>
            match run_task u 0 with
            | .error e => .error (.unitFail e)
            | .ok v =>
              .ok (v, ⟨s2.results ++ [(name, v)],
                s2.inProgress.erase name, s2.trace ++ [name]⟩)

/-- Embedding of `AsyncOperations.run_with_dependency_graph`: resolve every
task name in the task mapping, in mapping order, against initially empty
bookkeeping; return the final bookkeeping (the `results` dict plus the ghost
invocation trace).  An error aborts the whole run with no result mapping. -/
def run_with_dependency_graph (tasks : TaskMap) (deps : DepMap) :
    Except DGErr DGState :=
  runDeps (runTaskWithDeps tasks deps (tasks.length + 1)) (tasks.map Prod.fst)
    ⟨[], [], []⟩

/-- The dependency edge relation of a dependency map: `a` declares `b` as a
prerequisite. -/
def edge (deps : DepMap) (a b : String) : Prop := b ∈ adj deps a

/-- Reachability along dependency edges. -/
inductive Reaches (deps : DepMap) : String → String → Prop
  | refl (a : String) : Reaches deps a a
  | step {a b c : String} : edge deps a b → Reaches deps b c → Reaches deps a c

/-- A task name lying on a dependency cycle. -/
def OnCycle (deps : DepMap) (c : String) : Prop :=
  ∃ b, edge deps c b ∧ Reaches deps b c

/-- A task name from which some dependency cycle is reachable. -/
def ReachesCycle (deps : DepMap) (a : String) : Prop :=
  ∃ c, Reaches deps a c ∧ OnCycle deps c

/-- The dependency-map contract of the spec: every declared prerequisite name
is a key of the task mapping. -/
def ClosedDeps (tasks : TaskMap) (deps : DepMap) : Prop :=
  ∀ p ∈ deps, ∀ d ∈ p.2, d ∈ tasks.map Prod.fst

theorem dictGet_mem {β : Type} (l : List (String × β)) (k : String) (v : β)
    (h : dictGet l k = some v) : (k, v) ∈ l := by
  induction l with
  | nil => simp [dictGet] at h
  | cons p ps ih =>
    rw [dictGet] at h
    by_cases hp : p.1 = k
    · rw [if_pos hp] at h
      injection h with h
      subst hp
      subst h
      rw [Prod.mk.eta]
      exact List.mem_cons_self p ps
    · rw [if_neg hp] at h
      exact List.mem_cons_of_mem p (ih h)

theorem dictGet_eq_none {β : Type} (l : List (String × β)) (k : String) :
    dictGet l k = none ↔ k ∉ l.map Prod.fst := by
  induction l with
  | nil => simp [dictGet]
  | cons p ps ih =>
    rw [dictGet]
    by_cases hp : p.1 = k
    · simp only [if_pos hp, List.map_cons, List.mem_cons]
      constructor
      · intro h; exact absurd h (by simp)
      · intro h; exact absurd (Or.inl hp.symm) h
    · simp only [if_neg hp, List.map_cons, List.mem_cons, ih]
      constructor
      · intro h hk
        rcases hk with h1 | h2
        · exact hp h1.symm
        · exact h h2
      · intro h hk
        exact h (Or.inr hk)

theorem mem_keys_of_dictGet {β : Type} (l : List (String × β)) (k : String)
    (v : β) (h : dictGet l k = some v) : k ∈ l.map Prod.fst :=
  List.mem_map.mpr ⟨(k, v), dictGet_mem l k v h, rfl⟩

theorem dictGet_of_mem_keys {β : Type} (l : List (String × β)) (k : String)
    (h : k ∈ l.map Prod.fst) : ∃ v, dictGet l k = some v := by
  cases hv : dictGet l k with
  | none => exact absurd h ((dictGet_eq_none l k).mp hv)
  | some v => exact ⟨v, rfl⟩

theorem dictGet_append_left {β : Type} (l1 l2 : List (String × β)) (k : String)
    (v : β) (h : dictGet l1 k = some v) : dictGet (l1 ++ l2) k = some v := by
  induction l1 with
  | nil => simp [dictGet] at h
  | cons p ps ih =>
    rw [List.cons_append, dictGet]
    rw [dictGet] at h
    by_cases hp : p.1 = k
    · rw [if_pos hp] at h ⊢; exact h
    · rw [if_neg hp] at h ⊢; exact ih h

theorem dictGet_append_right {β : Type} (l1 l2 : List (String × β))
    (k : String) (h : dictGet l1 k = none) :
    dictGet (l1 ++ l2) k = dictGet l2 k := by
  induction l1 with
  | nil => rfl
  | cons p ps ih =>
    rw [dictGet] at h
    by_cases hp : p.1 = k
    · rw [if_pos hp] at h; exact absurd h (by simp)
    · rw [if_neg hp] at h
      rw [List.cons_append, dictGet, if_neg hp]
      exact ih h

theorem adj_subset_keys (tasks : TaskMap) (deps : DepMap)
    (hclosed : ClosedDeps tasks deps) (n d : String) (hd : d ∈ adj deps n) :
    d ∈ tasks.map Prod.fst := by
  unfold adj at hd
  cases hv : dictGet deps n with
  | none => rw [hv] at hd; simp at hd
  | some l =>
    rw [hv] at hd
    simp only [Option.getD_some] at hd
    exact hclosed (n, l) (dictGet_mem deps n l hv) d hd

theorem edge_src_mem (deps : DepMap) (a b : String) (h : edge deps a b) :
    a ∈ deps.map Prod.fst := by
  unfold edge adj at h
  cases hv : dictGet deps a with
  | none => rw [hv] at h; simp at h
  | some l => exact mem_keys_of_dictGet deps a l hv

/-- The `in_progress` stack discipline: each name on the stack declared the
name below it (towards the currently resolving name) as a prerequisite. -/
def stackOK (deps : DepMap) : String → List String → Prop
  | _, [] => True
  | n, p :: ps => edge deps p n ∧ stackOK deps p ps

theorem reaches_trans (deps : DepMap) {a b c : String}
    (h1 : Reaches deps a b) (h2 : Reaches deps b c) : Reaches deps a c := by
  induction h1 with
  | refl d => exact h2
  | step he _ ih => exact Reaches.step he (ih h2)

theorem stack_cycle_aux (deps : DepMap) :
    ∀ (l : List String) (top n : String), stackOK deps top l → n ∈ l →
      Reaches deps top n → OnCycle deps n := by
  intro l
  induction l with
  | nil => intro top n _ hn _; exact absurd hn (List.not_mem_nil n)
  | cons p ps ih =>
    intro top n h hn hr
    obtain ⟨hpt, hps⟩ := h
    rcases List.mem_cons.mp hn with rfl | hmem
    · exact ⟨top, hpt, hr⟩
    · exact ih p n hps hmem (Reaches.step hpt hr)

theorem stack_cycle (deps : DepMap) (l : List String) (n : String)
    (h : stackOK deps n l) (hn : n ∈ l) : OnCycle deps n :=
  stack_cycle_aux deps l n n h hn (Reaches.refl n)

theorem reachesCycle_step (deps : DepMap) (n : String)
    (h : ReachesCycle deps n) : ∃ d ∈ adj deps n, ReachesCycle deps d := by
  obtain ⟨c, hr, hc⟩ := h
  cases hr with
  | refl =>
    obtain ⟨b, hb, hbr⟩ := hc
    exact ⟨b, hb, n, hbr, ⟨b, hb, hbr⟩⟩
  | step he hr2 =>
    exact ⟨_, he, c, hr2, hc⟩

theorem split_append_singleton {α : Type} (t : List α) (x : α) (l1 : List α)
    (n : α) (l2 : List α) (h : t ++ [x] = l1 ++ n :: l2) :
    (l1 = t ∧ n = x ∧ l2 = []) ∨
      (∃ l2', l2 = l2' ++ [x] ∧ t = l1 ++ n :: l2') := by
  induction l2 using List.reverseRecOn with
  | nil =>
    have hinj := List.append_inj' h rfl
    have h2 := hinj.2
    simp only [List.cons.injEq, and_true] at h2
    left
    exact ⟨hinj.1.symm, h2.symm, rfl⟩
  | append_singleton l2' y _ =>
    have h' : t ++ [x] = (l1 ++ n :: l2') ++ [y] := by
      rw [h]; simp
    have hinj := List.append_inj' h' rfl
    have hxy : x = y := by
      have h2 := hinj.2
      simp only [List.cons.injEq, and_true] at h2
      exact h2
    right
    exact ⟨l2', by rw [hxy], hinj.1⟩

theorem filter_cons_notMem_length (l : List String) :
    ∀ (ip : List String) (name : String), l.Nodup → name ∈ l → name ∉ ip →
      (l.filter fun x => decide (x ∉ name :: ip)).length + 1 =
        (l.filter fun x => decide (x ∉ ip)).length := by
  induction l with
  | nil => intro ip name _ hmem _; exact absurd hmem (List.not_mem_nil name)
  | cons b t ih =>
    intro ip name hnd hmem hip
    rcases List.mem_cons.mp hmem with rfl | hmem2
    · have hnt : name ∉ t := (List.nodup_cons.mp hnd).1
      rw [List.filter_cons, List.filter_cons]
      have h1 : (decide (name ∉ name :: ip)) = false := by simp
      have h2 : (decide (name ∉ ip)) = true := by simp [hip]
      rw [h1, h2]
      have hcong : (t.filter fun x => decide (x ∉ name :: ip)) =
          t.filter fun x => decide (x ∉ ip) := by
        refine List.filter_congr fun x hx => ?_
        have hxn : x ≠ name := fun he => hnt (he ▸ hx)
        simp [List.mem_cons, hxn]
      rw [hcong]
      simp
    · have hbn : b ≠ name := fun he => (List.nodup_cons.mp hnd).1 (he ▸ hmem2)
      rw [List.filter_cons, List.filter_cons]
      have hpred : (decide (b ∉ name :: ip)) = decide (b ∉ ip) := by
        simp [List.mem_cons, hbn]
      rw [hpred]
      have ih' := ih ip name (List.nodup_cons.mp hnd).2 hmem2 hip
      split_ifs with hc
      · simp only [List.length_cons]
        omega
      · exact ih'

/-- The number of task names not yet held in `in_progress`: the bound on the
remaining recursion depth of `run_task_with_deps`. -/
def freshCount (tasks : TaskMap) (ip : List String) : Nat :=
  ((tasks.map Prod.fst).dedup.filter fun x => decide (x ∉ ip)).length

theorem freshCount_push (tasks : TaskMap) (ip : List String) (name : String)
    (hk : name ∈ tasks.map Prod.fst) (hip : name ∉ ip) :
    freshCount tasks (name :: ip) + 1 = freshCount tasks ip :=
  filter_cons_notMem_length _ ip name ((tasks.map Prod.fst).nodup_dedup)
    (List.mem_dedup.mpr hk) hip

theorem freshCount_le (tasks : TaskMap) :
    freshCount tasks [] ≤ tasks.length := by
  unfold freshCount
  calc ((tasks.map Prod.fst).dedup.filter fun x => decide (x ∉ ([] : List String))).length
      ≤ (tasks.map Prod.fst).dedup.length := List.length_filter_le _ _
    _ ≤ (tasks.map Prod.fst).length :=
        (tasks.map Prod.fst).dedup_sublist.length_le
    _ = tasks.length := List.length_map _ _

/-- The run invariant on the dependency-graph bookkeeping: results keys equal
the invocation trace (in order), no name is invoked twice, every invoked
name's prerequisites were invoked before it, trace and `in_progress` hold
only task names, and `in_progress` holds no duplicates. -/
def DGInv (tasks : TaskMap) (deps : DepMap) (s : DGState) : Prop :=
  s.results.map Prod.fst = s.trace ∧
  s.trace.Nodup ∧
  (∀ l1 n l2, s.trace = l1 ++ n :: l2 → ∀ d ∈ adj deps n, d ∈ l1) ∧
  (∀ x ∈ s.trace, x ∈ tasks.map Prod.fst) ∧
  (∀ x ∈ s.inProgress, x ∈ tasks.map Prod.fst) ∧
  s.inProgress.Nodup

/-- What a successful `run_task_with_deps` call guarantees: results and trace
are extended by the same fresh names (none of which was in `in_progress`),
`in_progress` is restored exactly, the resolved name is cached, and the
invariant still holds. -/
def TaskPost (tasks : TaskMap) (deps : DepMap) (name : String) (s : DGState)
    (v : Option Nat) (s' : DGState) : Prop :=
  (∃ newr : List (String × Option Nat),
      s'.results = s.results ++ newr ∧
      s'.trace = s.trace ++ newr.map Prod.fst ∧
      ∀ x ∈ newr.map Prod.fst, x ∉ s.inProgress) ∧
  s'.inProgress = s.inProgress ∧
  dictGet s'.results name = some v ∧
  DGInv tasks deps s'

/-- What a successful prerequisite loop guarantees: as `TaskPost`, with every
listed name cached at the end. -/
def DepsPost (tasks : TaskMap) (deps : DepMap) (ds : List String)
    (s s' : DGState) : Prop :=
  (∃ newr : List (String × Option Nat),
      s'.results = s.results ++ newr ∧
      s'.trace = s.trace ++ newr.map Prod.fst ∧
      ∀ x ∈ newr.map Prod.fst, x ∉ s.inProgress) ∧
  s'.inProgress = s.inProgress ∧
  (∀ d ∈ ds, ∃ v, dictGet s'.results d = some v) ∧
  DGInv tasks deps s'

theorem runDeps_master (tasks : TaskMap) (deps : DepMap) (F : Nat)
    (f : String → DGState → Except DGErr (Option Nat × DGState))
    (hf : ∀ name s, name ∈ tasks.map Prod.fst → DGInv tasks deps s →
      stackOK deps name s.inProgress → freshCount tasks s.inProgress < F →
      (∃ v s', f name s = .ok (v, s') ∧ TaskPost tasks deps name s v s') ∨
      (∃ c, f name s = .error (.cycle c) ∧ OnCycle deps c)) :
    ∀ (ds : List String) (s : DGState),
      (∀ d ∈ ds, d ∈ tasks.map Prod.fst) →
      DGInv tasks deps s →
      (∀ d ∈ ds, stackOK deps d s.inProgress) →
      freshCount tasks s.inProgress < F →
      (∃ s', runDeps f ds s = .ok s' ∧ DepsPost tasks deps ds s s') ∨
      (∃ c, runDeps f ds s = .error (.cycle c) ∧ OnCycle deps c) := by
  intro ds
  induction ds with
  | nil =>
    intro s _ hinv _ _
    left
    exact ⟨s, rfl, ⟨[], by simp, by simp, by simp⟩, rfl, by simp, hinv⟩
  | cons d ds ih =>
    intro s hks hinv hstk hfc
    rcases hf d s (hks d (List.mem_cons_self d ds)) hinv
        (hstk d (List.mem_cons_self d ds)) hfc with
      ⟨v, s1, hok, hpost⟩ | ⟨c, herr, hcyc⟩
    · obtain ⟨⟨newr1, hres1, htr1, hfresh1⟩, hip1, hlook1, hinv1⟩ := hpost
      have hks' : ∀ x ∈ ds, x ∈ tasks.map Prod.fst :=
        fun x hx => hks x (List.mem_cons_of_mem d hx)
      have hstk' : ∀ x ∈ ds, stackOK deps x s1.inProgress := by
        rw [hip1]
        exact fun x hx => hstk x (List.mem_cons_of_mem d hx)
      have hfc' : freshCount tasks s1.inProgress < F := by
        rw [hip1]; exact hfc
      rcases ih s1 hks' hinv1 hstk' hfc' with
        ⟨s2, hok2, hpost2⟩ | ⟨c, herr2, hcyc2⟩
      · obtain ⟨⟨newr2, hres2, htr2, hfresh2⟩, hip2, hlook2, hinv2⟩ := hpost2
        left
        refine ⟨s2, ?_, ⟨newr1 ++ newr2, ?_, ?_, ?_⟩, ?_, ?_, hinv2⟩
        · simp only [runDeps, hok]
          exact hok2
        · rw [hres2, hres1, List.append_assoc]
        · rw [htr2, htr1, List.map_append, List.append_assoc]
        · intro x hx
          rw [List.map_append] at hx
          rcases List.mem_append.mp hx with h1 | h2
          · exact hfresh1 x h1
          · have hx2 := hfresh2 x h2
            rw [hip1] at hx2
            exact hx2
        · rw [hip2, hip1]
        · intro x hx
          rcases List.mem_cons.mp hx with rfl | hmem
          · exact ⟨v, by rw [hres2]; exact dictGet_append_left _ _ _ _ hlook1⟩
          · exact hlook2 x hmem
      · right
        refine ⟨c, ?_, hcyc2⟩
        simp only [runDeps, hok]
        exact herr2
    · right
      refine ⟨c, ?_, hcyc⟩
      simp only [runDeps, herr]

theorem runTaskWithDeps_master (tasks : TaskMap) (deps : DepMap)
    (hclosed : ClosedDeps tasks deps)
    (hsucc : ∀ p ∈ tasks, ∃ v, p.2.run 0 = .ok v) :
    ∀ (fuel : Nat) (name : String) (s : DGState),
      name ∈ tasks.map Prod.fst →
      DGInv tasks deps s →
      stackOK deps name s.inProgress →
      freshCount tasks s.inProgress < fuel →
      (∃ v s', runTaskWithDeps tasks deps fuel name s = .ok (v, s') ∧
        TaskPost tasks deps name s v s') ∨
      (∃ c, runTaskWithDeps tasks deps fuel name s = .error (.cycle c) ∧
        OnCycle deps c) := by
  intro fuel
  induction fuel with
  | zero => intro name s _ _ _ hfc; omega
  | succ fuel ih =>
    intro name s hname hinv hstk hfc
    obtain ⟨hrt, hnd, hdo, htk, hik, hin⟩ := hinv
    cases hcache : dictGet s.results name with
    | some v =>
      left
      exact ⟨v, s, by simp only [runTaskWithDeps, hcache],
        ⟨[], by simp, by simp, by simp⟩, rfl, hcache,
        hrt, hnd, hdo, htk, hik, hin⟩
    | none =>
      by_cases hip : name ∈ s.inProgress
      · right
        exact ⟨name, by simp only [runTaskWithDeps, hcache, hip, if_true],
          stack_cycle deps s.inProgress name hstk hip⟩
      · have hinv1 : DGInv tasks deps ⟨s.results, name :: s.inProgress, s.trace⟩ :=
          ⟨hrt, hnd, hdo, htk,
            fun x hx => (List.mem_cons.mp hx).elim (fun he => he ▸ hname) (hik x),
            List.nodup_cons.mpr ⟨hip, hin⟩⟩
        have hks1 : ∀ d ∈ adj deps name, d ∈ tasks.map Prod.fst :=
          fun d hd => adj_subset_keys tasks deps hclosed name d hd
        have hstk1 : ∀ d ∈ adj deps name,
            stackOK deps d (⟨s.results, name :: s.inProgress, s.trace⟩ : DGState).inProgress :=
          fun d hd => ⟨hd, hstk⟩
        have hfc1 : freshCount tasks
            (⟨s.results, name :: s.inProgress, s.trace⟩ : DGState).inProgress < fuel := by
          have hpush := freshCount_push tasks s.inProgress name hname hip
          show freshCount tasks (name :: s.inProgress) < fuel
          omega
        rcases runDeps_master tasks deps fuel (runTaskWithDeps tasks deps fuel)
            ih (adj deps name) ⟨s.results, name :: s.inProgress, s.trace⟩
            hks1 hinv1 hstk1 hfc1 with
          ⟨s2, hok2, hpost2⟩ | ⟨c, herr2, hcyc2⟩
        · obtain ⟨⟨newr2, hres2, htr2, hfresh2⟩, hip2, hlook2, hinv2⟩ := hpost2
          obtain ⟨hrt2, hnd2, hdo2, htk2, hik2, hin2⟩ := hinv2
          obtain ⟨u, hu⟩ := dictGet_of_mem_keys tasks name hname
          obtain ⟨v, hv⟩ := hsucc (name, u) (dictGet_mem tasks name u hu)
          have hv' : u.run 0 = .ok v := hv
          have hres2' : s2.results = s.results ++ newr2 := hres2
          have htr2' : s2.trace = s.trace ++ newr2.map Prod.fst := htr2
          have hip2' : s2.inProgress = name :: s.inProgress := hip2
          have hname_fresh2 : name ∉ newr2.map Prod.fst := fun hmem =>
            hfresh2 name hmem (List.mem_cons_self name s.inProgress)
          have hname_trace : name ∉ s.trace := by
            rw [← hrt]
            exact (dictGet_eq_none s.results name).mp hcache
          have hname_s2trace : name ∉ s2.trace := by
            rw [htr2']
            intro hmem
            rcases List.mem_append.mp hmem with h1 | h2
            · exact hname_trace h1
            · exact hname_fresh2 h2
          have hlook3 : dictGet (s2.results ++ [(name, v)]) name = some v := by
            rw [dictGet_append_right _ _ _ ((dictGet_eq_none s2.results name).mpr
              (fun hmem => hname_s2trace (hrt2 ▸ hmem)))]
            simp [dictGet]
          left
          refine ⟨v, ⟨s2.results ++ [(name, v)], s2.inProgress.erase name,
            s2.trace ++ [name]⟩, ?_, ⟨newr2 ++ [(name, v)], ?_, ?_, ?_⟩,
            ?_, hlook3, ?_, ?_, ?_, ?_, ?_, ?_⟩
          · simp only [runTaskWithDeps, hcache, hip, if_false, hok2, hu,
              run_task, hv']
          · rw [hres2', List.append_assoc]
          · rw [htr2', List.map_append, List.append_assoc]
            rfl
          · intro x hx
            rw [List.map_append] at hx
            rcases List.mem_append.mp hx with h1 | h2
            · intro hxin
              exact hfresh2 x h1 (List.mem_cons_of_mem name hxin)
            · have hx2 : x = name := by simpa using h2
              rw [hx2]
              exact hip
          · show s2.inProgress.erase name = s.inProgress
            rw [hip2', List.erase_cons_head]
          · show (s2.results ++ [(name, v)]).map Prod.fst = s2.trace ++ [name]
            rw [List.map_append, hrt2]
            rfl
          · show (s2.trace ++ [name]).Nodup
            rw [List.nodup_append]
            exact ⟨hnd2, List.nodup_singleton name,
              fun a ha hb => hname_s2trace ((List.mem_singleton.mp hb) ▸ ha)⟩
          · show ∀ l1 n2 l2, s2.trace ++ [name] = l1 ++ n2 :: l2 →
              ∀ d ∈ adj deps n2, d ∈ l1
            intro l1 n2 l2 hsplit d hd
            rcases split_append_singleton s2.trace name l1 n2 l2 hsplit with
              ⟨hl1, hn2, _⟩ | ⟨l2', _, htint⟩
            · subst hl1
              subst hn2
              obtain ⟨w, hw⟩ := hlook2 d hd
              have := mem_keys_of_dictGet s2.results d w hw
              rw [hrt2] at this
              exact this
            · exact hdo2 l1 n2 l2' htint d hd
          · show ∀ x ∈ s2.trace ++ [name], x ∈ tasks.map Prod.fst
            intro x hx
            rcases List.mem_append.mp hx with h1 | h2
            · exact htk2 x h1
            · rw [List.mem_singleton.mp h2]
              exact hname
          · show ∀ x ∈ s2.inProgress.erase name, x ∈ tasks.map Prod.fst
            intro x hx
            rw [hip2', List.erase_cons_head] at hx
            exact hik x hx
          · show (s2.inProgress.erase name).Nodup
            rw [hip2', List.erase_cons_head]
            exact hin
        · right
          refine ⟨c, ?_, hcyc2⟩
          simp only [runTaskWithDeps, hcache, hip, if_false, herr2]

theorem runDeps_sound (deps : DepMap)
    (f : String → DGState → Except DGErr (Option Nat × DGState))
    (hf : ∀ name s v s',
      (∀ x ∈ s.results.map Prod.fst, ¬ ReachesCycle deps x) →
      f name s = .ok (v, s') →
      ¬ ReachesCycle deps name ∧
        ∀ x ∈ s'.results.map Prod.fst, ¬ ReachesCycle deps x) :
    ∀ (ds : List String) (s s' : DGState),
      (∀ x ∈ s.results.map Prod.fst, ¬ ReachesCycle deps x) →
      runDeps f ds s = .ok s' →
      (∀ d ∈ ds, ¬ ReachesCycle deps d) ∧
        ∀ x ∈ s'.results.map Prod.fst, ¬ ReachesCycle deps x := by
  intro ds
  induction ds with
  | nil =>
    intro s s' hres hok
    have hss : s = s' := by
      simpa [runDeps] using hok
    subst hss
    exact ⟨by simp, hres⟩
  | cons d ds ih =>
    intro s s' hres hok
    cases hfd : f d s with
    | error e =>
      simp only [runDeps, hfd] at hok
      exact absurd hok (by simp)
    | ok p =>
      obtain ⟨v, s1⟩ := p
      simp only [runDeps, hfd] at hok
      obtain ⟨hnd, hres1⟩ := hf d s v s1 hres hfd
      obtain ⟨hds, hres'⟩ := ih s1 s' hres1 hok
      exact ⟨fun x hx =>
        (List.mem_cons.mp hx).elim (fun he => he ▸ hnd) (hds x), hres'⟩

theorem runTaskWithDeps_sound (tasks : TaskMap) (deps : DepMap) :
    ∀ (fuel : Nat) (name : String) (s : DGState) (v : Option Nat)
      (s' : DGState),
      (∀ x ∈ s.results.map Prod.fst, ¬ ReachesCycle deps x) →
      runTaskWithDeps tasks deps fuel name s = .ok (v, s') →
      ¬ ReachesCycle deps name ∧
        ∀ x ∈ s'.results.map Prod.fst, ¬ ReachesCycle deps x := by
  intro fuel
  induction fuel with
  | zero =>
    intro name s v s' _ hok
    exact absurd hok (by simp [runTaskWithDeps])
  | succ fuel ih =>
    intro name s v s' hres hok
    cases hcache : dictGet s.results name with
    | some w =>
      simp only [runTaskWithDeps, hcache] at hok
      refine ⟨hres name (mem_keys_of_dictGet _ _ _ hcache), ?_⟩
      simp only [Except.ok.injEq, Prod.mk.injEq] at hok
      obtain ⟨_, hs'⟩ := hok
      subst hs'
      exact hres
    | none =>
      by_cases hip : name ∈ s.inProgress
      · simp only [runTaskWithDeps, hcache, hip, if_true] at hok
        exact absurd hok (by simp)
      · cases hdeps : runDeps (runTaskWithDeps tasks deps fuel)
            (adj deps name) ⟨s.results, name :: s.inProgress, s.trace⟩ with
        | error e =>
          simp only [runTaskWithDeps, hcache, hip, if_false, hdeps] at hok
          exact absurd hok (by simp)
        | ok s2 =>
          have hsound := runDeps_sound deps (runTaskWithDeps tasks deps fuel)
            (fun nm st w st' hr hk => ih nm st w st' hr hk) (adj deps name)
            ⟨s.results, name :: s.inProgress, s.trace⟩ s2 hres hdeps
          obtain ⟨hds, hres2⟩ := hsound
          cases hu : dictGet tasks name with
          | none =>
            simp only [runTaskWithDeps, hcache, hip, if_false, hdeps, hu] at hok
            exact absurd hok (by simp)
          | some u =>
            cases hrun : run_task u 0 with
            | error e =>
              simp only [runTaskWithDeps, hcache, hip, if_false, hdeps,
                hu, hrun] at hok
              exact absurd hok (by simp)
            | ok w =>
              simp only [runTaskWithDeps, hcache, hip, if_false, hdeps,
                hu, hrun] at hok
              have hnRC : ¬ ReachesCycle deps name := by
                intro hrc
                obtain ⟨d, hd, hdc⟩ := reachesCycle_step deps name hrc
                exact hds d hd hdc
              refine ⟨hnRC, ?_⟩
              simp only [Except.ok.injEq, Prod.mk.injEq] at hok
              obtain ⟨_, hs'⟩ := hok
              subst hs'
              intro x hx
              simp only [List.map_append] at hx
              rcases List.mem_append.mp hx with h1 | h2
              · exact hres2 x h1
              · have hxn : x = name := by simpa using h2
                rw [hxn]
                exact hnRC

/-- C1: for every task mapping and dependency map that satisfies the
dependency-map contract (declared prerequisite names are task names), whose
units all succeed, and that contains a cycle reachable from some task, the
dependency-graph runner aborts with the circular-dependency error naming a
task that lies on a cycle; being an error, the run returns no (partial)
result mapping to the caller. -/
theorem c1_cycle_detected (tasks : TaskMap) (deps : DepMap)
    (hclosed : ClosedDeps tasks deps)
    (hsucc : ∀ p ∈ tasks, ∃ v, p.2.run 0 = .ok v)
    (hcyc : ∃ t ∈ tasks.map Prod.fst, ReachesCycle deps t) :
    ∃ c, run_with_dependency_graph tasks deps = .error (.cycle c) ∧
      OnCycle deps c := by
  have hinv0 : DGInv tasks deps ⟨[], [], []⟩ := by
    refine ⟨rfl, List.nodup_nil, ?_, by simp, by simp, List.nodup_nil⟩
    intro l1 n l2 h
    exact absurd h (by simp)
  have hfc0 : freshCount tasks ([] : List String) < tasks.length + 1 := by
    have := freshCount_le tasks
    omega
  rcases runDeps_master tasks deps (tasks.length + 1)
      (runTaskWithDeps tasks deps (tasks.length + 1))
      (runTaskWithDeps_master tasks deps hclosed hsucc (tasks.length + 1))
      (tasks.map Prod.fst) ⟨[], [], []⟩ (fun d hd => hd) hinv0
      (fun d _ => trivial) hfc0 with
    ⟨s', hok, hpost⟩ | ⟨c, herr, hc⟩
  · exfalso
    obtain ⟨t, ht, htc⟩ := hcyc
    have hsound := runDeps_sound deps
      (runTaskWithDeps tasks deps (tasks.length + 1))
      (fun nm st w st' =>
        runTaskWithDeps_sound tasks deps (tasks.length + 1) nm st w st')
      (tasks.map Prod.fst) ⟨[], [], []⟩ s' (by simp) hok
    exact hsound.1 t ht htc
  · exact ⟨c, herr, hc⟩

/-- C2: for every acyclic dependency map over the task names (all units
succeeding), the dependency-graph run succeeds; each task's unit is invoked
exactly once (the trace of invocations has no duplicates and is a
permutation of the task names, so the returned mapping has exactly the task
names as keys, in invocation order); and every declared prerequisite of a
task is resolved — appears in the invocation trace — strictly before that
task's own invocation. -/
theorem c2_acyclic_resolution (tasks : TaskMap) (deps : DepMap)
    (hnodup : (tasks.map Prod.fst).Nodup)
    (hclosed : ClosedDeps tasks deps)
    (hsucc : ∀ p ∈ tasks, ∃ v, p.2.run 0 = .ok v)
    (hacyc : ∀ n, ¬ OnCycle deps n) :
    ∃ s, run_with_dependency_graph tasks deps = .ok s ∧
      s.results.map Prod.fst = s.trace ∧
      s.trace.Nodup ∧
      s.trace.Perm (tasks.map Prod.fst) ∧
      ∀ n ∈ tasks.map Prod.fst, ∀ d ∈ adj deps n,
        ∃ l1 l2, s.trace = l1 ++ n :: l2 ∧ d ∈ l1 := by
  have hinv0 : DGInv tasks deps ⟨[], [], []⟩ := by
    refine ⟨rfl, List.nodup_nil, ?_, by simp, by simp, List.nodup_nil⟩
    intro l1 n l2 h
    exact absurd h (by simp)
  have hfc0 : freshCount tasks ([] : List String) < tasks.length + 1 := by
    have := freshCount_le tasks
    omega
  rcases runDeps_master tasks deps (tasks.length + 1)
      (runTaskWithDeps tasks deps (tasks.length + 1))
      (runTaskWithDeps_master tasks deps hclosed hsucc (tasks.length + 1))
      (tasks.map Prod.fst) ⟨[], [], []⟩ (fun d hd => hd) hinv0
      (fun d _ => trivial) hfc0 with
    ⟨s', hok, hpost⟩ | ⟨c, _, hc⟩
  · obtain ⟨_, _, hlook, hinv'⟩ := hpost
    obtain ⟨hrt', hnd', hdo', htk', _, _⟩ := hinv'
    refine ⟨s', hok, hrt', hnd', ?_, ?_⟩
    · refine (List.perm_ext_iff_of_nodup hnd' hnodup).mpr fun a => ⟨htk' a, ?_⟩
      intro ha
      obtain ⟨w, hw⟩ := hlook a ha
      have := mem_keys_of_dictGet s'.results a w hw
      rw [hrt'] at this
      exact this
    · intro n hn d hd
      obtain ⟨w, hw⟩ := hlook n hn
      have hnt : n ∈ s'.trace := by
        have := mem_keys_of_dictGet s'.results n w hw
        rw [hrt'] at this
        exact this
      obtain ⟨l1, l2, hsplit⟩ := List.append_of_mem hnt
      exact ⟨l1, l2, hsplit, hdo' l1 n l2 hsplit d hd⟩
  · exact absurd hc (hacyc c)

/-- A unit of work that always succeeds returning `None` (the spec's `noop`). -/
def noopUnit : UnitOfWork := ⟨fun _ => .ok none, 0⟩

/-- The two-task mapping `{A: noop, B: noop}` of the spec's examples. -/
def abTasks : TaskMap := [("A", noopUnit), ("B", noopUnit)]

/-- The cyclic dependency map `{A: [B], B: [A]}`. -/
def abCycleDeps : DepMap := [("A", ["B"]), ("B", ["A"])]

/-- The acyclic dependency map `{A: [B]}`. -/
def abChainDeps : DepMap := [("A", ["B"])]

theorem reaches_cases (deps : DepMap) {a c : String} (h : Reaches deps a c) :
    a = c ∨ ∃ b, edge deps a b ∧ Reaches deps b c := by
  cases h with
  | refl => exact Or.inl rfl
  | step he hr => exact Or.inr ⟨_, he, hr⟩

theorem abTasks_succ : ∀ p ∈ abTasks, ∃ v, p.2.run 0 = .ok v := by
  intro p hp
  refine ⟨none, ?_⟩
  rcases List.mem_cons.mp hp with rfl | hp2
  · rfl
  · rcases List.mem_cons.mp hp2 with rfl | hp3
    · rfl
    · exact absurd hp3 (List.not_mem_nil p)

theorem c1_witness :
    ClosedDeps abTasks abCycleDeps ∧
    (∀ p ∈ abTasks, ∃ v, p.2.run 0 = .ok v) ∧
    (∃ t ∈ abTasks.map Prod.fst, ReachesCycle abCycleDeps t) ∧
    (∃ c, run_with_dependency_graph abTasks abCycleDeps =
        .error (.cycle c) ∧ OnCycle abCycleDeps c) ∧
    run_with_dependency_graph abTasks abCycleDeps = .error (.cycle "A") :=
  have hclosed : ClosedDeps abTasks abCycleDeps := by
    unfold ClosedDeps
    decide
  have hedgeAB : edge abCycleDeps "A" "B" := by
    show ("B" : String) ∈ adj abCycleDeps "A"
    decide
  have hedgeBA : edge abCycleDeps "B" "A" := by
    show ("A" : String) ∈ adj abCycleDeps "B"
    decide
  have hcyc : ∃ t ∈ abTasks.map Prod.fst, ReachesCycle abCycleDeps t :=
    ⟨"A", by decide, "A", Reaches.refl "A",
      "B", hedgeAB, Reaches.step hedgeBA (Reaches.refl "A")⟩
  ⟨hclosed, abTasks_succ, hcyc,
   c1_cycle_detected abTasks abCycleDeps hclosed abTasks_succ hcyc, by rfl⟩

theorem abChainDeps_acyclic : ∀ n, ¬ OnCycle abChainDeps n := by
  rintro n ⟨b, hb, hr⟩
  have hn : n ∈ abChainDeps.map Prod.fst := edge_src_mem abChainDeps n b hb
  have hnA : n = "A" := by simpa [abChainDeps] using hn
  subst hnA
  have hbB : b = "B" := by
    have hmem : b ∈ adj abChainDeps "A" := hb
    simpa [abChainDeps, adj, dictGet] using hmem
  subst hbB
  rcases reaches_cases abChainDeps hr with heq | ⟨x, he, _⟩
  · exact absurd heq (by decide)
  · have hB : ("B" : String) ∈ abChainDeps.map Prod.fst :=
      edge_src_mem _ _ _ he
    simp [abChainDeps] at hB

theorem c2_witness :
    (abTasks.map Prod.fst).Nodup ∧
    ClosedDeps abTasks abChainDeps ∧
    (∀ p ∈ abTasks, ∃ v, p.2.run 0 = .ok v) ∧
    (∀ n, ¬ OnCycle abChainDeps n) ∧
    (∃ s, run_with_dependency_graph abTasks abChainDeps = .ok s ∧
      s.results.map Prod.fst = s.trace ∧
      s.trace.Nodup ∧
      s.trace.Perm (abTasks.map Prod.fst) ∧
      ∀ n ∈ abTasks.map Prod.fst, ∀ d ∈ adj abChainDeps n,
        ∃ l1 l2, s.trace = l1 ++ n :: l2 ∧ d ∈ l1) ∧
    run_with_dependency_graph abTasks abChainDeps =
      .ok ⟨[("B", none), ("A", none)], [], ["B", "A"]⟩ :=
  ⟨by decide, by unfold ClosedDeps; decide, abTasks_succ, abChainDeps_acyclic,
   c2_acyclic_resolution abTasks abChainDeps (by decide)
     (by unfold ClosedDeps; decide) abTasks_succ abChainDeps_acyclic, by rfl⟩

/-- C4: if at least one unit in the sequence fails, the parallel runner raises
rather than returning, so no partial result collection reaches the caller. -/
theorem c4_parallel_fail_fast (us : List UnitOfWork)
    (h : ∃ u ∈ us, ∃ e, u.run 0 = .error e) :
    ∃ e, run_in_parallel us = .error e :=
  run_in_parallel_error us h

theorem c4_witness :
    (∃ u ∈ ([⟨fun _ => .ok (some 1), 0⟩, ⟨fun _ => .error "boom", 0⟩] :
        List UnitOfWork), ∃ e, u.run 0 = .error e) ∧
    ∃ e, run_in_parallel
        [⟨fun _ => .ok (some 1), 0⟩, ⟨fun _ => .error "boom", 0⟩] = .error e :=
  ⟨⟨⟨fun _ => .error "boom", 0⟩, by simp, "boom", rfl⟩,
   c4_parallel_fail_fast _ ⟨⟨fun _ => .error "boom", 0⟩, by simp, "boom", rfl⟩⟩
